import Mathlib

/-!
Verification development for the iTerm2 "open profile" Alfred workflow.

The program parses the text dump produced by `plutil -p` over the iTerm2
preference plist into (name, tags) records, filters them by a query and
serializes the survivors as Alfred XML feedback.

Python strings are modelled as `List Char`.  Each Python string
operation used by the sources (`in` / `str.find != -1`, `str.replace`,
`str.split`, `str.strip`, `str.lower`, `' '.join`) is given an
executable model below; the parser, the filter and the serializer are
then direct translations of `iTerm2OpenProfile.py` and `alfred.py`.
-/

/-- Python `needle in haystack` test helper: does `l` start with `p`?
(`str.startswith`). -/
def startsWithL : List Char → List Char → Bool
  | [], _ => true
  | _ :: _, [] => false
  | p :: ps, c :: cs => p = c && startsWithL ps cs

/-- Python `haystack.find(pat) != -1`, i.e. substring containment. -/
def containsL : List Char → List Char → Bool
  | pat, [] => pat.isEmpty
  | pat, c :: cs => startsWithL pat (c :: cs) || containsL pat cs

/-- Python `line.split('=>')`: split on every (leftmost, non-overlapping)
occurrence of the two-character separator `=>`. -/
def splitArrow : List Char → List (List Char)
  | [] => [[]]
  | '=' :: '>' :: cs => [] :: splitArrow cs
  | c :: cs =>
    match splitArrow cs with
    | [] => [[c]]
    | p :: ps => (c :: p) :: ps

/-- Python `s.replace(c, rep)` for a single-character pattern `c`:
every occurrence of `c` is replaced by `rep`. -/
def replaceChar (c : Char) (rep : List Char) : List Char → List Char
  | [] => []
  | a :: l => (if a = c then rep else [a]) ++ replaceChar c rep l

/-- Python `line.replace('"Name" => ', '')`: delete every occurrence of
the ten-character name marker `"Name" => `. -/
def replaceNameKw : List Char → List Char
  | [] => []
  | '"' :: 'N' :: 'a' :: 'm' :: 'e' :: '"' :: ' ' :: '=' :: '>' :: ' ' :: cs => replaceNameKw cs
  | c :: cs => c :: replaceNameKw cs

/-- The (ASCII) whitespace characters removed by Python `str.strip()`. -/
def isPySpace (c : Char) : Bool :=
  c = ' ' || c = '\t' || c = '\n' || c = '\r' || c = '\x0b' || c = '\x0c'

/-- Python `s.strip()`: drop whitespace from both ends. -/
def pyStrip (l : List Char) : List Char :=
  ((l.dropWhile isPySpace).reverse.dropWhile isPySpace).reverse

/-- Python `s.lower()` (restricted to its ASCII action, which is all the
workflow's data exercises). -/
def pyLower (l : List Char) : List Char := l.map Char.toLower

/-- Python `' '.join(tags)`. -/
def joinSpace : List (List Char) → List Char
  | [] => []
  | [t] => t
  | t :: ts => t ++ ' ' :: joinSpace ts

/-- `keyword_name = '"Name" => '` from `iTerm2OpenProfile.wsh_list`. -/
def keyword_name : List Char := "\"Name\" => ".data

/-- `keyword_tags = '"Tags" => '` from `iTerm2OpenProfile.wsh_list`. -/
def keyword_tags : List Char := "\"Tags\" => ".data

/-- One parsed profile record: `dict(name=name, tags=' '.join(tags))`
from `wsh_list` — note that the `tags` field is the already
space-joined string, exactly as in the source. -/
structure ProfileRecord where
  name : List Char
  tags : List Char
deriving DecidableEq

/-- The parser's loop state in `wsh_list`: the accumulated `items`, the
pending `name`, the pending `tags` list and the `tag_end` flag
(`tag_end = false` means we are inside an open tag block). -/
structure PState where
  items : List ProfileRecord
  name : List Char
  tags : List (List Char)
  tag_end : Bool
deriving DecidableEq

/-- `line.replace(keyword_name, '').replace('"', '').strip()` — the name
extracted from a line containing the name marker. -/
def extractName (line : List Char) : List Char :=
  pyStrip (replaceChar '"' [] (replaceNameKw line))

/-- `t.replace('"', '').strip()` applied to a piece of a split line —
the tag token built from `line.split('=>')[1]`. -/
def extractTag (t : List Char) : List Char :=
  pyStrip (replaceChar '"' [] t)

/-- One iteration of the `for line in f.readlines()` loop of `wsh_list`.
The three `if` statements of the source are independent (the first is
not an `elif`), the second ends in `continue`, and the tag-entry branch
indexes `line.split('=>')[1]`, which raises `IndexError` when the line
contains no `=>`; that exception is modelled by `none`. -/
def step (s : PState) (line : List Char) : Option PState :=
  let s1 := if containsL keyword_name line then { s with name := extractName line } else s
  if containsL keyword_tags line then some { s1 with tag_end := false }
  else if s1.tag_end = false then
    if containsL [']'] line then
      some { s1 with items := s1.items ++ [⟨s1.name, joinSpace s1.tags⟩],
                     name := [], tags := [], tag_end := true }
    else
      match (splitArrow line)[1]? with
      | some t => some { s1 with tags := s1.tags ++ [extractTag t] }
      | none => none
  else some s1

/-- Run the parsing loop over all lines; `none` propagates an uncaught
`IndexError`. -/
def runLines : PState → List (List Char) → Option PState
  | s, [] => some s
  | s, l :: ls =>
    match step s l with
    | some s' => runLines s' ls
    | none => none

/-- The initial parser state of `wsh_list`:
`items = []`, `name = ""`, `tags = []`, `tag_end = True`. -/
def initState : PState := ⟨[], [], [], true⟩

/-- The parse phase of `wsh_list`: the record list accumulated over the
whole dump, or `none` if the loop raises. -/
def parse (lines : List (List Char)) : Option (List ProfileRecord) :=
  (runLines initState lines).map (·.items)

/-- The loop body of `iTerm2OpenProfile.filter`: append matching items
to `new_items` (here the accumulator `acc`). -/
def filterLoop (q : List Char) : List ProfileRecord → List ProfileRecord → List ProfileRecord
  | acc, [] => acc
  | acc, it :: rest =>
    if containsL q (pyLower it.name) || containsL q (pyLower it.tags) then
      filterLoop q (acc ++ [it]) rest
    else
      filterLoop q acc rest

/-- `iTerm2OpenProfile.filter`: identity on the empty query, otherwise
lower-case the query once and keep the items whose lowered name or
lowered (joined) tags contain it. -/
def filter (items : List ProfileRecord) (query : List Char) : List ProfileRecord :=
  if query = [] then items
  else filterLoop (pyLower query) [] items

/-- The filter as the specification §4.2 words it: empty query is the
identity; otherwise keep exactly those records whose case-folded name
or case-folded space-joined tags contain the case-folded query, in
original order.  (Reference definition for the refinement claim C7.) -/
def filterSpec (items : List ProfileRecord) (query : List Char) : List ProfileRecord :=
  if query = [] then items
  else items.filter
    (fun it => containsL (pyLower query) (pyLower it.name)
            || containsL (pyLower query) (pyLower it.tags))

/-! ## The serializer and the top-level runner (`alfred.py`) -/

/-- `xml.etree.ElementTree._escape_cdata` as invoked on text content: the
three `str.replace` calls, ampersand first. -/
def escape_cdata (s : List Char) : List Char :=
  replaceChar '>' "&gt;".data (replaceChar '<' "&lt;".data (replaceChar '&' "&amp;".data s))

/-- A Python value stored in a feedback item's `subtitle` slot.  The
workflow normally stores a `str`; `Workflow.run`'s error handler stores
the caught exception *object* (`self.add_item(..., err, ...)`), which
`ElementTree` cannot serialize. -/
inductive PyText where
  | str (s : List Char)
  | exc (msg : List Char)
deriving DecidableEq

/-- The fields of `alfred.Item` this workflow exercises. -/
structure Item where
  title : List Char
  subtitle : PyText
  arg : Option (List Char)
  valid : Bool
  icon : Option (List Char)
deriving DecidableEq

/-- `ElementTree`'s rendering of a subelement holding plain text:
an empty text falsifies `if text:` and the element is emitted as
`<tag />`; otherwise the text is escaped and wrapped in the tag pair. -/
def elemString (tag : List Char) (text : List Char) : List Char :=
  if text = [] then '<' :: (tag ++ " />".data)
  else '<' :: (tag ++ '>' :: (escape_cdata text ++ '<' :: '/' :: (tag ++ ['>'])))

/-- `Item.elem` followed by `ElementTree` serialization of the item
subtree.  Children in source order: `title`, `subtitle`, then `arg` and
`icon` only when truthy (`if self.arg:` / `if self.icon:`).  A
`PyText.exc` subtitle makes `_escape_cdata` raise `TypeError`
("cannot serialize"), modelled by `none`. -/
def serializeItem (it : Item) : Option (List Char) :=
  match it.subtitle with
  | .exc _ => none
  | .str sub =>
    some ("<item valid=\"".data ++ (if it.valid then "yes".data else "no".data) ++ "\">".data
      ++ elemString "title".data it.title
      ++ elemString "subtitle".data sub
      ++ (match it.arg with
          | some a => if a = [] then [] else elemString "arg".data a
          | none => [])
      ++ (match it.icon with
          | some i => if i = [] then [] else elemString "icon".data i
          | none => [])
      ++ "</item>".data)

/-- Serialize the item subtrees in order; the first failure aborts the
whole rendering (`ET.tostring` raises before returning anything). -/
def serializeItems : List Item → Option (List (List Char))
  | [] => some []
  | it :: rest =>
    match serializeItem it, serializeItems rest with
    | some d, some ds => some (d :: ds)
    | _, _ => none

/-- `ET.tostring(root)` for the `<items>` root assembled in
`Workflow.send_feedback`: all-or-nothing — if any item fails to
serialize, `tostring` raises and returns nothing. -/
def tostringRoot (items : List Item) : Option (List Char) :=
  (serializeItems items).map (fun parts =>
    if parts.isEmpty then "<items />".data
    else "<items>".data ++ parts.flatten ++ "</items>".data)

/-- An event on the process's standard output stream. -/
inductive OutEv where
  | wr (s : List Char)
  | flush
deriving DecidableEq

/-- The declaration line `Workflow.send_feedback` writes first. -/
def xmlHeader : List Char := "<?xml version=\"1.0\" encoding=\"utf-8\"?>\n".data

/-- `Workflow.send_feedback`: write the encoding declaration, then the
serialized root, then flush.  The declaration is written *before*
`ET.tostring` runs, so when serialization raises only the declaration
has reached standard output and no flush is executed. -/
def send_feedback (items : List Item) : List OutEv :=
  match tostringRoot items with
  | some doc => [.wr xmlHeader, .wr doc, .flush]
  | none => [.wr xmlHeader]

/-- The single-quote character (used by the error title `'%s'`). -/
def squote : Char := Char.ofNat 39

/-- `ICON_ERROR` from `alfred.py`. -/
def ICON_ERROR : List Char :=
  "/System/Library/CoreServices/CoreTypes.bundle/Contents/Resources/AlertStopIcon.icns".data

/-- The synthetic item built by `Workflow.run`'s exception handler:
`self.add_item("Error in workflow '%s'" % name, err, icon=ICON_ERROR)`.
`valid` keeps its default `False`, `arg` its default `None`, and the
subtitle receives the exception object itself. -/
def errorItem (nm : List Char) (err : List Char) : Item :=
  { title := "Error in workflow ".data ++ squote :: (nm ++ [squote])
    subtitle := .exc err
    arg := none
    valid := false
    icon := some ICON_ERROR }

/-- Outcome of the workflow body `func(self)` as `Workflow.run` sees it:
either it completed (having produced its own output events) or it
raised an exception carrying a description. -/
inductive BodyResult where
  | ok (events : List OutEv)
  | raises (err : List Char)

/-- `Workflow.run`: the body runs inside one catch-all `try`.  On an
exception the handler empties `_items`, adds the synthetic error item
and calls `send_feedback`.  Result: the output events and `some 0` for
a normal return of `run`; `none` when the handler itself raises (the
`TypeError` from serializing the exception object), in which case the
process dies with a traceback instead of returning. -/
def run (nm : List Char) (body : BodyResult) : List OutEv × Option Nat :=
  match body with
  | .ok evs => (evs, some 0)
  | .raises err =>
    match tostringRoot [errorItem nm err] with
    | some doc => ([.wr xmlHeader, .wr doc, .flush], some 0)
    | none => ([.wr xmlHeader], none)

/-- `iTerm2OpenProfile.create_local_copy`, its filesystem and
subprocess staging abstracted to the existence of the source plist: on
the missing-file branch the source raises
`ItermPlistError('Can not find plist file at: ' + iterm_plist)`. -/
def create_local_copy (plistExists : Bool) (plistPath : List Char) :
    Except (List Char) (List Char) :=
  if plistExists then Except.ok "/tmp/com.googlecode.iterm2.json".data
  else Except.error ("Can not find plist file at: ".data ++ plistPath)

/-- The item `wsh_list` adds for one surviving record:
`wf.add_item(title=item['name'], subtitle=item['tags'], arg=item['name'], valid=True)`. -/
def wshItem (r : ProfileRecord) : Item :=
  { title := r.name, subtitle := .str r.tags, arg := some r.name, valid := true, icon := none }

/-! ## A standard XML consumer, modelled from the spec

The claims about escaping (C8) talk about what "a standard markup
parser" recovers from the emitted document.  That parser is external to
the repository; the two definitions below model, from the spec's words,
its entity decoding (`&amp;`/`&lt;`/`&gt;`) and its reading of a text
node: the characters up to the next `<`, entity-decoded. -/

/-- Modelled from the spec: standard XML character-entity decoding, the
inverse direction of §4.3's escaping requirement. -/
def decode : List Char → List Char
  | [] => []
  | '&' :: 'a' :: 'm' :: 'p' :: ';' :: r => '&' :: decode r
  | '&' :: 'l' :: 't' :: ';' :: r => '<' :: decode r
  | '&' :: 'g' :: 't' :: ';' :: r => '>' :: decode r
  | c :: r => c :: decode r

/-- Modelled from the spec: a standard parser's recovery of the text of
element `tag` from its serialized form — an empty element yields the
empty text, otherwise the characters after `<tag>` up to the next `<`,
entity-decoded. -/
def parseElemText (tag xml : List Char) : Option (List Char) :=
  if startsWithL ('<' :: (tag ++ " />".data)) xml then some []
  else if startsWithL ('<' :: (tag ++ ['>'])) xml then
    some (decode ((xml.drop ('<' :: (tag ++ ['>'])).length).takeWhile (· ≠ '<')))
  else none

/-- Does the text contain one of the markup metacharacters named by C8? -/
def hasMeta (s : List Char) : Bool := s.any (fun c => c = '<' || c = '&' || c = '"')

/-! ## Well-formed dump shapes and other claim-level vocabulary -/

/-- The two-character separator `=>` used by `line.split('=>')`. -/
def arrow : List Char := ['=', '>']

/-- A line that plays the rôle of a name marker in a well-formed block:
it contains the name marker and none of the other structural markers
the parser reacts to. -/
def wfNameLine (l : List Char) : Bool :=
  containsL keyword_name l && !containsL keyword_tags l

/-- A tags-open line of a well-formed block. -/
def wfOpenLine (l : List Char) : Bool :=
  containsL keyword_tags l && !containsL keyword_name l

/-- A tag-entry line of a well-formed block (`<index> => "<tag>"`): it
has a `=>` separator and none of the structural markers. -/
def wfTagLine (l : List Char) : Bool :=
  !containsL keyword_name l && !containsL keyword_tags l &&
  !containsL [']'] l && containsL arrow l

/-- A closing line of a well-formed block: it contains `]` and no other
structural marker. -/
def wfCloseLine (l : List Char) : Bool :=
  containsL [']'] l && !containsL keyword_name l && !containsL keyword_tags l

/-- One name/tags block of the dump, §6's input shape. -/
structure Block where
  nameLine : List Char
  openLine : List Char
  tagLines : List (List Char)
  closeLine : List Char
deriving DecidableEq

/-- All four parts of the block are well formed. -/
def wfBlock (b : Block) : Bool :=
  wfNameLine b.nameLine && wfOpenLine b.openLine &&
  b.tagLines.all wfTagLine && wfCloseLine b.closeLine

/-- The lines of one block, top to bottom. -/
def blockLines (b : Block) : List (List Char) :=
  b.nameLine :: b.openLine :: (b.tagLines ++ [b.closeLine])

/-- A dump made of consecutive blocks. -/
def dumpOf (bs : List Block) : List (List Char) := (bs.map blockLines).flatten

/-- The tag token the parser builds from a tag-entry line:
`line.split('=>')[1].replace('"', '').strip()`. -/
def tagTokenOf (l : List Char) : List Char := extractTag ((splitArrow l)[1]?.getD [])

/-- The record a well-formed block denotes: its extracted name and its
space-joined tag tokens, in order. -/
def recordOf (b : Block) : ProfileRecord :=
  ⟨extractName b.nameLine, joinSpace (b.tagLines.map tagTokenOf)⟩

/-- How many lines of the dump contain the name marker. -/
def countNameMarkers (lines : List (List Char)) : Nat :=
  (lines.filter (fun l => containsL keyword_name l)).length

/-- Re-join split pieces with the `=>` separator (used to express "the
portion of the line after the first `=>`"). -/
def joinArrow : List (List Char) → List Char
  | [] => []
  | [t] => t
  | t :: ts => t ++ '=' :: '>' :: joinArrow ts

/-- Modelled from the spec/claim C5's words: the tag token described
there — the ENTIRE portion of the line after the FIRST occurrence of
`=>`, with quotes stripped and whitespace trimmed.  (Reference
definition, to be compared with the source's `tagTokenOf`.) -/
def specTagToken (l : List Char) : List Char :=
  extractTag (joinArrow ((splitArrow l).drop 1))

/-- The per-character view of `_escape_cdata`'s three replacements. -/
def escChar (c : Char) : List Char :=
  if c = '&' then "&amp;".data
  else if c = '<' then "&lt;".data
  else if c = '>' then "&gt;".data
  else [c]

/-! ## Basic lemmas about the string primitives -/

theorem startsWithL_iff (p l : List Char) :
    startsWithL p l = true ↔ ∃ t, l = p ++ t := by
  induction p generalizing l with
  | nil => simp [startsWithL]
  | cons c cs ih =>
    cases l with
    | nil =>
      simp [startsWithL]
    | cons a l' =>
      simp only [startsWithL, Bool.and_eq_true, decide_eq_true_eq, ih]
      constructor
      · rintro ⟨rfl, t, rfl⟩
        exact ⟨t, rfl⟩
      · rintro ⟨t, ht⟩
        rw [List.cons_append] at ht
        injection ht with h1 h2
        exact ⟨h1.symm, t, h2⟩

theorem startsWithL_self_append (p t : List Char) : startsWithL p (p ++ t) = true :=
  (startsWithL_iff p (p ++ t)).mpr ⟨t, rfl⟩

theorem startsWithL_append_same (p q r : List Char) :
    startsWithL (p ++ q) (p ++ r) = startsWithL q r := by
  induction p with
  | nil => rfl
  | cons c cs ih => simp [startsWithL, ih]

theorem containsL_iff (p l : List Char) :
    containsL p l = true ↔ ∃ pre post, l = pre ++ (p ++ post) := by
  induction l with
  | nil =>
    simp only [containsL, List.isEmpty_iff]
    constructor
    · rintro rfl
      exact ⟨[], [], rfl⟩
    · rintro ⟨pre, post, h⟩
      rcases List.append_eq_nil.mp h.symm with ⟨rfl, h2⟩
      rcases List.append_eq_nil.mp h2 with ⟨rfl, rfl⟩
      rfl
  | cons c cs ih =>
    simp only [containsL, Bool.or_eq_true, ih, startsWithL_iff]
    constructor
    · rintro (⟨t, ht⟩ | ⟨pre, post, h⟩)
      · exact ⟨[], t, ht⟩
      · exact ⟨c :: pre, post, by simp [h]⟩
    · rintro ⟨pre, post, h⟩
      cases pre with
      | nil => exact Or.inl ⟨post, by simpa using h⟩
      | cons x xs =>
        rw [List.cons_append] at h
        injection h with h1 h2
        exact Or.inr ⟨xs, post, h2⟩

theorem containsL_of_parts (p pre post l : List Char) (h : l = pre ++ (p ++ post)) :
    containsL p l = true :=
  (containsL_iff p l).mpr ⟨pre, post, h⟩

theorem containsL_mono (q p l : List Char) (hqp : containsL q p = true)
    (hpl : containsL p l = true) : containsL q l = true := by
  rcases (containsL_iff p l).mp hpl with ⟨c, d, rfl⟩
  rcases (containsL_iff q p).mp hqp with ⟨a, b, hp⟩
  subst hp
  exact containsL_of_parts q (c ++ a) (b ++ d) _ (by simp)

/-! ## Lemmas about `splitArrow` -/

theorem splitArrow_ne_nil (l : List Char) : splitArrow l ≠ [] := by
  rw [splitArrow.eq_def]
  split
  · simp
  · simp
  · split <;> simp

theorem splitArrow_arrow_head (rest : List Char) :
    splitArrow ('=' :: '>' :: rest) = [] :: splitArrow rest := by
  simp [splitArrow]

theorem splitArrow_cons_no_match (c : Char) (cs : List Char)
    (h : startsWithL arrow (c :: cs) = false) :
    splitArrow (c :: cs) =
      match splitArrow cs with
      | [] => [[c]]
      | p :: ps => (c :: p) :: ps := by
  conv_lhs => rw [splitArrow.eq_def]
  split
  · simp_all
  · next cs' heq =>
    injection heq with h1 h2
    subst h1
    subst h2
    simp [arrow, startsWithL] at h
  · next x c' cs' hnm heq =>
    injection heq with h1 h2
    subst h1
    subst h2
    rfl

theorem splitArrow_append_sep (a rest : List Char) (h : containsL arrow a = false) :
    splitArrow (a ++ '=' :: '>' :: rest) = a :: splitArrow rest := by
  induction a with
  | nil => simpa using splitArrow_arrow_head rest
  | cons c a' ih =>
    simp only [containsL, Bool.or_eq_false_iff] at h
    obtain ⟨hsw, hct⟩ := h
    have hsw2 : startsWithL arrow (c :: (a' ++ '=' :: '>' :: rest)) = false := by
      cases a' with
      | nil => simp [arrow, startsWithL]
      | cons b a'' =>
        simp [arrow, startsWithL] at hsw ⊢
        exact hsw
    rw [List.cons_append, splitArrow_cons_no_match c _ hsw2, ih hct]

theorem splitArrow_two_of_contains (l : List Char) (h : containsL arrow l = true) :
    2 ≤ (splitArrow l).length := by
  rcases (containsL_iff _ _).mp h with ⟨pre, post, rfl⟩
  by_cases hpre : containsL arrow pre = true
  · rcases (containsL_iff _ _).mp hpre with ⟨a, b, rfl⟩
    clear h hpre
    induction a with
    | nil =>
      rw [show ((([] : List Char) ++ (arrow ++ b)) ++ (arrow ++ post)) =
            '=' :: '>' :: (b ++ (arrow ++ post)) by simp [arrow]]
      rw [splitArrow_arrow_head]
      have := List.length_pos.mpr (splitArrow_ne_nil (b ++ (arrow ++ post)))
      simp
      omega
    | cons c a' iha =>
      by_cases hsw : startsWithL arrow (c :: ((a' ++ (arrow ++ b)) ++ (arrow ++ post))) = true
      · rcases (startsWithL_iff _ _).mp hsw with ⟨t, ht⟩
        rw [show ((c :: a' ++ (arrow ++ b)) ++ (arrow ++ post)) =
              c :: ((a' ++ (arrow ++ b)) ++ (arrow ++ post)) by simp]
        rw [ht, show (arrow ++ t) = '=' :: '>' :: t by simp [arrow]]
        rw [splitArrow_arrow_head]
        have := List.length_pos.mpr (splitArrow_ne_nil t)
        simp
        omega
      · rw [show ((c :: a' ++ (arrow ++ b)) ++ (arrow ++ post)) =
              c :: ((a' ++ (arrow ++ b)) ++ (arrow ++ post)) by simp]
        rw [splitArrow_cons_no_match c _ (by simpa using hsw)]
        have h2 := iha
        cases hsp : splitArrow ((a' ++ (arrow ++ b)) ++ (arrow ++ post)) with
        | nil => exact absurd hsp (splitArrow_ne_nil _)
        | cons p ps =>
          rw [hsp] at h2
          simp at h2 ⊢
          omega
  · have hf : containsL arrow pre = false := by simpa using hpre
    rw [show (pre ++ (arrow ++ post)) = pre ++ '=' :: '>' :: post by simp [arrow]]
    rw [splitArrow_append_sep pre post hf]
    have := List.length_pos.mpr (splitArrow_ne_nil post)
    simp
    omega

theorem splitArrow_get1 (l : List Char) (h : containsL arrow l = true) :
    ∃ t, (splitArrow l)[1]? = some t := by
  have h2 := splitArrow_two_of_contains l h
  exact ⟨_, List.getElem?_eq_getElem (by omega)⟩

theorem arrow_in_keyword_name : containsL arrow keyword_name = true := by decide

/-! ## Behaviour of one parser step -/

theorem step_name_line (si : List ProfileRecord) (sn : List Char) (st : List (List Char))
    (l : List Char)
    (h1 : containsL keyword_name l = true) (h2 : containsL keyword_tags l = false) :
    step ⟨si, sn, st, true⟩ l = some ⟨si, extractName l, st, true⟩ := by
  simp [step, h1, h2]

theorem step_open_line (si : List ProfileRecord) (sn : List Char) (st : List (List Char))
    (se : Bool) (l : List Char)
    (h1 : containsL keyword_tags l = true) (h2 : containsL keyword_name l = false) :
    step ⟨si, sn, st, se⟩ l = some ⟨si, sn, st, false⟩ := by
  simp [step, h1, h2]

theorem step_close_line (si : List ProfileRecord) (sn : List Char) (st : List (List Char))
    (l : List Char)
    (h1 : containsL keyword_name l = false) (h2 : containsL keyword_tags l = false)
    (h3 : containsL [']'] l = true) :
    step ⟨si, sn, st, false⟩ l = some ⟨si ++ [⟨sn, joinSpace st⟩], [], [], true⟩ := by
  simp [step, h1, h2, h3]

theorem step_tag_line (si : List ProfileRecord) (sn : List Char) (st : List (List Char))
    (l t : List Char)
    (h1 : containsL keyword_name l = false) (h2 : containsL keyword_tags l = false)
    (h3 : containsL [']'] l = false) (h4 : (splitArrow l)[1]? = some t) :
    step ⟨si, sn, st, false⟩ l = some ⟨si, sn, st ++ [extractTag t], false⟩ := by
  simp [step, h1, h2, h3, h4]

theorem step_stuck_line (si : List ProfileRecord) (sn : List Char) (st : List (List Char))
    (l : List Char)
    (h2 : containsL keyword_tags l = false)
    (h3 : containsL [']'] l = false) (h4 : (splitArrow l)[1]? = none) :
    step ⟨si, sn, st, false⟩ l = none := by
  unfold step
  split <;> simp [h2, h3, h4]

/-! ## Running the loop over line sequences -/

theorem runLines_cons (s : PState) (l : List Char) (ls : List (List Char)) (s' : PState)
    (h : step s l = some s') : runLines s (l :: ls) = runLines s' ls := by
  simp [runLines, h]

theorem runLines_append (s : PState) (l1 l2 : List (List Char)) :
    runLines s (l1 ++ l2) =
      match runLines s l1 with
      | some s' => runLines s' l2
      | none => none := by
  induction l1 generalizing s with
  | nil => simp [runLines]
  | cons l ls ih =>
    simp only [List.cons_append, runLines]
    cases hs : step s l with
    | none => rfl
    | some s' => simp [ih]

theorem runLines_tagLines (si : List ProfileRecord) (sn : List Char)
    (st : List (List Char)) (tls : List (List Char)) (hwf : tls.all wfTagLine = true)
    (rest : List (List Char)) :
    runLines ⟨si, sn, st, false⟩ (tls ++ rest) =
      runLines ⟨si, sn, st ++ tls.map tagTokenOf, false⟩ rest := by
  revert hwf
  induction tls generalizing st with
  | nil => intro _; simp
  | cons l tls ih =>
    intro hwf
    simp only [List.all_cons, Bool.and_eq_true] at hwf
    obtain ⟨hl, htls⟩ := hwf
    simp only [wfTagLine, Bool.and_eq_true, Bool.not_eq_true'] at hl
    obtain ⟨⟨⟨h1, h2⟩, h3⟩, h4⟩ := hl
    obtain ⟨t, ht⟩ := splitArrow_get1 l h4
    rw [List.cons_append,
        runLines_cons _ _ _ _ (step_tag_line si sn st l t h1 h2 h3 ht),
        ih (st ++ [extractTag t]) htls]
    simp [tagTokenOf, ht, List.append_assoc]

theorem runLines_block (items : List ProfileRecord) (b : Block) (hwf : wfBlock b = true)
    (rest : List (List Char)) :
    runLines ⟨items, [], [], true⟩ (blockLines b ++ rest) =
      runLines ⟨items ++ [recordOf b], [], [], true⟩ rest := by
  simp only [wfBlock, Bool.and_eq_true] at hwf
  obtain ⟨⟨⟨hn, ho⟩, htl⟩, hc⟩ := hwf
  simp only [wfNameLine, wfOpenLine, wfCloseLine, Bool.and_eq_true, Bool.not_eq_true'] at hn ho hc
  obtain ⟨hn1, hn2⟩ := hn
  obtain ⟨ho1, ho2⟩ := ho
  obtain ⟨⟨hc1, hc2⟩, hc3⟩ := hc
  rw [blockLines, List.cons_append,
      runLines_cons _ _ _ _ (step_name_line items [] [] b.nameLine hn1 hn2),
      List.cons_append,
      runLines_cons _ _ _ _
        (step_open_line items (extractName b.nameLine) [] true b.openLine ho1 ho2),
      show (b.tagLines ++ [b.closeLine]) ++ rest = b.tagLines ++ (b.closeLine :: rest) by
        simp [List.append_assoc],
      runLines_tagLines items (extractName b.nameLine) [] b.tagLines htl (b.closeLine :: rest)]
  simp only [List.nil_append]
  rw [runLines_cons _ _ _ _
        (step_close_line items (extractName b.nameLine) (b.tagLines.map tagTokenOf)
          b.closeLine hc2 hc3 hc1)]
  rfl

theorem runLines_dump (bs : List Block) (hwf : bs.all wfBlock = true)
    (items : List ProfileRecord) (rest : List (List Char)) :
    runLines ⟨items, [], [], true⟩ (dumpOf bs ++ rest) =
      runLines ⟨items ++ bs.map recordOf, [], [], true⟩ rest := by
  induction bs generalizing items with
  | nil => simp [dumpOf]
  | cons b bs ih =>
    simp only [List.all_cons, Bool.and_eq_true] at hwf
    obtain ⟨hb, hbs⟩ := hwf
    have hd : dumpOf (b :: bs) ++ rest = blockLines b ++ (dumpOf bs ++ rest) := by
      simp [dumpOf]
    rw [hd, runLines_block items b hb, ih hbs]
    simp [List.append_assoc]

/-! ## Escaping: `_escape_cdata` and the standard consumer -/

theorem replaceChar_append (c : Char) (rep x y : List Char) :
    replaceChar c rep (x ++ y) = replaceChar c rep x ++ replaceChar c rep y := by
  induction x with
  | nil => rfl
  | cons a l ih => simp [replaceChar, ih]

theorem escape_cdata_append (x y : List Char) :
    escape_cdata (x ++ y) = escape_cdata x ++ escape_cdata y := by
  simp [escape_cdata, replaceChar_append]

theorem escape_cdata_singleton (c : Char) : escape_cdata [c] = escChar c := by
  by_cases h1 : c = '&'
  · subst h1; decide
  · by_cases h2 : c = '<'
    · subst h2; decide
    · by_cases h3 : c = '>'
      · subst h3; decide
      · simp [escape_cdata, replaceChar, escChar, h1, h2, h3]

theorem escape_cdata_cons (c : Char) (l : List Char) :
    escape_cdata (c :: l) = escChar c ++ escape_cdata l := by
  rw [show (c :: l) = [c] ++ l from rfl, escape_cdata_append, escape_cdata_singleton]

theorem decode_cons_ne (c : Char) (r : List Char) (h : c ≠ '&') :
    decode (c :: r) = c :: decode r := by
  conv_lhs => rw [decode.eq_def]
  split <;> simp_all

theorem decode_escChar (c : Char) (t : List Char) :
    decode (escChar c ++ t) = c :: decode t := by
  by_cases h1 : c = '&'
  · subst h1
    rw [show escChar '&' ++ t = '&' :: 'a' :: 'm' :: 'p' :: ';' :: t from rfl]
    simp [decode]
  · by_cases h2 : c = '<'
    · subst h2
      rw [show escChar '<' ++ t = '&' :: 'l' :: 't' :: ';' :: t from rfl]
      simp [decode]
    · by_cases h3 : c = '>'
      · subst h3
        rw [show escChar '>' ++ t = '&' :: 'g' :: 't' :: ';' :: t from rfl]
        simp [decode]
      · rw [show escChar c ++ t = c :: t by simp [escChar, h1, h2, h3]]
        exact decode_cons_ne c t h1

theorem decode_escape_cdata_append (l t : List Char) :
    decode (escape_cdata l ++ t) = l ++ decode t := by
  induction l with
  | nil => rfl
  | cons c l ih =>
    rw [escape_cdata_cons, List.append_assoc, decode_escChar, ih, List.cons_append]

theorem decode_escape_cdata (l : List Char) : decode (escape_cdata l) = l := by
  have h := decode_escape_cdata_append l []
  simpa [decode] using h

theorem escChar_no_lt (c : Char) (x : Char) (hx : x ∈ escChar c) : x ≠ '<' := by
  by_cases h1 : c = '&'
  · subst h1
    rw [show escChar '&' = ['&', 'a', 'm', 'p', ';'] from rfl] at hx
    simp at hx
    rcases hx with rfl | rfl | rfl | rfl | rfl <;> decide
  · by_cases h2 : c = '<'
    · subst h2
      rw [show escChar '<' = ['&', 'l', 't', ';'] from rfl] at hx
      simp at hx
      rcases hx with rfl | rfl | rfl | rfl <;> decide
    · by_cases h3 : c = '>'
      · subst h3
        rw [show escChar '>' = ['&', 'g', 't', ';'] from rfl] at hx
        simp at hx
        rcases hx with rfl | rfl | rfl | rfl <;> decide
      · rw [show escChar c = [c] by simp [escChar, h1, h2, h3]] at hx
        simp at hx
        subst hx
        exact h2

theorem escape_cdata_no_lt (l : List Char) (x : Char) (hx : x ∈ escape_cdata l) : x ≠ '<' := by
  induction l with
  | nil => simp [escape_cdata, replaceChar] at hx
  | cons c l ih =>
    rw [escape_cdata_cons] at hx
    rcases List.mem_append.mp hx with h | h
    · exact escChar_no_lt c x h
    · exact ih h

theorem takeWhile_append_all (p : Char → Bool) (l m : List Char)
    (h : ∀ c ∈ l, p c = true) :
    (l ++ m).takeWhile p = l ++ m.takeWhile p := by
  induction l with
  | nil => rfl
  | cons c cs ih =>
    have hc : p c = true := h c (by simp)
    simp only [List.cons_append, List.takeWhile_cons, hc]
    simp [ih (fun x hx => h x (by simp [hx]))]

theorem parseElemText_elemString (tag t : List Char) :
    parseElemText tag (elemString tag t) = some t := by
  by_cases ht : t = []
  · subst ht
    have hsw : startsWithL ('<' :: (tag ++ " />".data)) ('<' :: (tag ++ " />".data)) = true := by
      simpa using startsWithL_self_append ('<' :: (tag ++ " />".data)) []
    simp [parseElemText, elemString, hsw]
  · have hout : elemString tag t =
        '<' :: (tag ++ '>' :: (escape_cdata t ++ '<' :: '/' :: (tag ++ ['>']))) := by
      simp [elemString, ht]
    have hsw1 : startsWithL ('<' :: (tag ++ " />".data))
        ('<' :: (tag ++ '>' :: (escape_cdata t ++ '<' :: '/' :: (tag ++ ['>'])))) = false := by
      simp only [startsWithL, decide_True, Bool.true_and]
      rw [startsWithL_append_same]
      simp [startsWithL]
    have hsw2 : startsWithL ('<' :: (tag ++ ['>']))
        ('<' :: (tag ++ '>' :: (escape_cdata t ++ '<' :: '/' :: (tag ++ ['>'])))) = true := by
      simp only [startsWithL, decide_True, Bool.true_and]
      rw [show tag ++ '>' :: (escape_cdata t ++ '<' :: '/' :: (tag ++ ['>'])) =
            (tag ++ ['>']) ++ (escape_cdata t ++ '<' :: '/' :: (tag ++ ['>'])) by simp]
      exact startsWithL_self_append _ _
    rw [hout, parseElemText]
    rw [if_neg (by simp [hsw1]), if_pos (by simp [hsw2])]
    have hdrop : ('<' :: (tag ++ '>' :: (escape_cdata t ++ '<' :: '/' :: (tag ++ ['>'])))).drop
        ('<' :: (tag ++ ['>'])).length =
        escape_cdata t ++ '<' :: '/' :: (tag ++ ['>']) := by
      rw [show ('<' :: (tag ++ '>' :: (escape_cdata t ++ '<' :: '/' :: (tag ++ ['>'])))) =
            ('<' :: (tag ++ ['>'])) ++ (escape_cdata t ++ '<' :: '/' :: (tag ++ ['>'])) by simp]
      exact List.drop_left _ _
    rw [hdrop]
    rw [takeWhile_append_all _ _ _
          (fun c hc => decide_eq_true (escape_cdata_no_lt t c hc))]
    simp [decode_escape_cdata]

/-! ## The filter -/

theorem filterLoop_eq_filter (q : List Char) (acc items : List ProfileRecord) :
    filterLoop q acc items =
      acc ++ items.filter
        (fun it => containsL q (pyLower it.name) || containsL q (pyLower it.tags)) := by
  induction items generalizing acc with
  | nil => simp [filterLoop]
  | cons it rest ih =>
    by_cases h : (containsL q (pyLower it.name) || containsL q (pyLower it.tags)) = true
    · simp [filterLoop, h, ih, List.filter_cons]
    · have h' : (containsL q (pyLower it.name) || containsL q (pyLower it.tags)) = false := by
        simpa using h
      simp [filterLoop, h', ih, List.filter_cons]

/-- **C7**: `filter` coincides with the specification's reference
filter: the empty query is the identity, and a non-empty query keeps
exactly the records whose case-folded name or case-folded space-joined
tags contain the case-folded query, preserving the original relative
order (and, being a pure function, it has no side effects on its
input). -/
theorem c7_filter_refines_spec (items : List ProfileRecord) (query : List Char) :
    filter items query = filterSpec items query := by
  by_cases hq : query = []
  · simp [filter, filterSpec, hq]
  · simp [filter, filterSpec, hq, filterLoop_eq_filter]

/-! ## Totality of the parse step on separator-bearing lines -/

theorem step_isSome (s : PState) (l : List Char)
    (h : containsL arrow l = true ∨ containsL [']'] l = true) :
    (step s l).isSome = true := by
  obtain ⟨si, sn, st, se⟩ := s
  by_cases hT : containsL keyword_tags l = true
  · simp [step, hT]
  · have hT' : containsL keyword_tags l = false := by simpa using hT
    by_cases hE : se = true
    · simp [step, hT', hE, apply_ite PState.tag_end]
    · have hE' : se = false := by simpa using hE
      by_cases hC : containsL [']'] l = true
      · simp [step, hT', hE', hC, apply_ite PState.tag_end]
      · have hC' : containsL [']'] l = false := by simpa using hC
        have ha : containsL arrow l = true := by
          rcases h with h | h
          · exact h
          · exact absurd h (by simp [hC'])
        obtain ⟨t, ht⟩ := splitArrow_get1 l ha
        simp [step, hT', hE', hC', ht, apply_ite PState.tag_end]

theorem runLines_isSome (s : PState) (lines : List (List Char))
    (h : lines.all (fun l => containsL arrow l || containsL [']'] l) = true) :
    (runLines s lines).isSome = true := by
  induction lines generalizing s with
  | nil => simp [runLines]
  | cons l ls ih =>
    simp only [List.all_cons, Bool.and_eq_true] at h
    obtain ⟨hl, hls⟩ := h
    have hs := step_isSome s l (by simpa using hl)
    cases hstep : step s l with
    | none => rw [hstep] at hs; simp at hs
    | some s' => simp [runLines, hstep, ih s' hls]

/-- **C2** (amended): the parse step never raises on a dump in which
every line carries a `=>` separator or a `]` — in particular on every
dump made of name-marker, tags-open, `index => "tag"` and closing
lines, however malformed their arrangement.  It is NOT total on
arbitrary input: a line read inside an open tag block that contains
neither `]` nor `=>` (nor the tags marker) makes `line.split('=>')[1]`
raise `IndexError` (see the counterexample). -/
theorem c2_amended_parser_total_on_separator_lines (lines : List (List Char))
    (h : lines.all (fun l => containsL arrow l || containsL [']'] l) = true) :
    (parse lines).isSome = true := by
  have hr := runLines_isSome initState lines h
  simpa [parse] using hr

/-- **C2** (counterexample): on the dump whose tag block contains the
marker-free line `foo`, the parser raises (`line.split('=>')[1]` is out
of range), so `parse` is not total as the claim states. -/
theorem c2_counterexample_parse_raises :
    parse ["\"Tags\" => ".data, "foo".data] = none := by decide

theorem c2_witness :
    (["  \"Name\" => \"Dev\"".data, "  \"Tags\" => [".data, "    0 => \"work\"".data,
      "  ]".data].all (fun l => containsL arrow l || containsL [']'] l) = true) ∧
    (parse ["  \"Name\" => \"Dev\"".data, "  \"Tags\" => [".data, "    0 => \"work\"".data,
      "  ]".data]).isSome = true :=
  ⟨by decide, c2_amended_parser_total_on_separator_lines _ (by decide)⟩

/-! ## Round trip on well-formed dumps -/

/-- **C4**: a dump made of `N` well-formed name/tags blocks parses to
exactly `N` records, in the dump's top-to-bottom order, record `i`
carrying block `i`'s extracted name and its tag tokens (space-joined)
in original order. -/
theorem c4_parse_wellformed_blocks (bs : List Block) (hwf : bs.all wfBlock = true) :
    parse (dumpOf bs) = some (bs.map recordOf) := by
  have h := runLines_dump bs hwf [] []
  rw [List.append_nil] at h
  simp only [List.nil_append] at h
  simp [parse, initState, h, runLines]

theorem c4_witness :
    ([(⟨"  \"Name\" => \"Dev\"".data, "  \"Tags\" => [".data,
        ["    0 => \"work\"".data, "    1 => \"cli\"".data], "  ]".data⟩ : Block)].all
      wfBlock = true) ∧
    parse (dumpOf [(⟨"  \"Name\" => \"Dev\"".data, "  \"Tags\" => [".data,
        ["    0 => \"work\"".data, "    1 => \"cli\"".data], "  ]".data⟩ : Block)]) =
      some [⟨"Dev".data, "work cli".data⟩] :=
  ⟨by decide,
   (c4_parse_wellformed_blocks
      [⟨"  \"Name\" => \"Dev\"".data, "  \"Tags\" => [".data,
        ["    0 => \"work\"".data, "    1 => \"cli\"".data], "  ]".data⟩]
      (by decide)).trans (by decide)⟩

/-! ## Name-marker counting and unterminated blocks -/

theorem filter_name_tagLines (tls : List (List Char)) (h : tls.all wfTagLine = true) :
    tls.filter (fun l => containsL keyword_name l) = [] := by
  induction tls with
  | nil => rfl
  | cons l tls ih =>
    simp only [List.all_cons, Bool.and_eq_true] at h
    obtain ⟨hl, htls⟩ := h
    simp only [wfTagLine, Bool.and_eq_true, Bool.not_eq_true'] at hl
    simp [List.filter_cons, hl.1.1.1, ih htls]

theorem countNameMarkers_append (l1 l2 : List (List Char)) :
    countNameMarkers (l1 ++ l2) = countNameMarkers l1 + countNameMarkers l2 := by
  simp [countNameMarkers, List.filter_append]

theorem countNameMarkers_block (b : Block) (hwf : wfBlock b = true) :
    countNameMarkers (blockLines b) = 1 := by
  simp only [wfBlock, Bool.and_eq_true] at hwf
  obtain ⟨⟨⟨hn, ho⟩, htl⟩, hc⟩ := hwf
  simp only [wfNameLine, wfOpenLine, wfCloseLine, Bool.and_eq_true, Bool.not_eq_true'] at hn ho hc
  simp [countNameMarkers, blockLines, List.filter_cons, List.filter_append,
    hn.1, ho.2, hc.1.2, filter_name_tagLines b.tagLines htl]

theorem countNameMarkers_dump (bs : List Block) (hwf : bs.all wfBlock = true) :
    countNameMarkers (dumpOf bs) = bs.length := by
  induction bs with
  | nil => simp [dumpOf, countNameMarkers]
  | cons b bs ih =>
    simp only [List.all_cons, Bool.and_eq_true] at hwf
    obtain ⟨hb, hbs⟩ := hwf
    rw [show dumpOf (b :: bs) = blockLines b ++ dumpOf bs by simp [dumpOf],
        countNameMarkers_append, countNameMarkers_block b hb, ih hbs]
    simp [Nat.add_comm]

/-- **C6** (amended): when the stream ends while `inTagBlock` is still
true, the in-progress record is not emitted — only closing markers
finalize records.  Concretely: a dump of `N` well-formed blocks
followed by an unterminated block (name line, tags-open line, tag
lines, no closing `]`) parses to exactly the `N` closed records, the
loop ends with `tag_end = false`, and `N + 1` name markers were seen —
so the specific "one fewer record than name markers" count holds for
this well-formed shape, though not for arbitrary dumps (see the
counterexample). -/
theorem c6_amended_unterminated_block_dropped (bs : List Block) (n o : List Char)
    (tls : List (List Char)) (hbs : bs.all wfBlock = true) (hn : wfNameLine n = true)
    (ho : wfOpenLine o = true) (htls : tls.all wfTagLine = true) :
    parse (dumpOf bs ++ n :: o :: tls) = some (bs.map recordOf) ∧
    (runLines initState (dumpOf bs ++ n :: o :: tls)).map PState.tag_end = some false ∧
    countNameMarkers (dumpOf bs ++ n :: o :: tls) = bs.length + 1 := by
  simp only [wfNameLine, wfOpenLine, Bool.and_eq_true, Bool.not_eq_true'] at hn ho
  obtain ⟨hn1, hn2⟩ := hn
  obtain ⟨ho1, ho2⟩ := ho
  have hrun : runLines initState (dumpOf bs ++ n :: o :: tls) =
      some ⟨bs.map recordOf, extractName n, tls.map tagTokenOf, false⟩ := by
    rw [show initState = (⟨[], [], [], true⟩ : PState) from rfl,
        runLines_dump bs hbs [] (n :: o :: tls)]
    simp only [List.nil_append]
    rw [runLines_cons _ _ _ _ (step_name_line (bs.map recordOf) [] [] n hn1 hn2),
        runLines_cons _ _ _ _
          (step_open_line (bs.map recordOf) (extractName n) [] true o ho1 ho2)]
    have h2 := runLines_tagLines (bs.map recordOf) (extractName n) [] tls htls []
    rw [List.append_nil] at h2
    rw [h2]
    simp [runLines]
  refine ⟨by simp [parse, hrun], by simp [hrun], ?_⟩
  rw [countNameMarkers_append, countNameMarkers_dump bs hbs]
  have h3 : countNameMarkers (n :: o :: tls) = 1 := by
    simp [countNameMarkers, List.filter_cons, hn1, ho2, filter_name_tagLines tls htls]
  rw [h3]

/-- **C6** (counterexample): a dump ending inside an open tag block
after two name-marker lines yields zero records although two name
markers were seen — not "one fewer record than the number of name
markers seen" as the claim states for every such dump. -/
theorem c6_counterexample_name_marker_count :
    (runLines initState ["\"Name\" => \"A\"".data, "\"Name\" => \"B\"".data,
        "\"Tags\" => ".data]).map PState.tag_end = some false ∧
    (parse ["\"Name\" => \"A\"".data, "\"Name\" => \"B\"".data,
        "\"Tags\" => ".data]).map List.length ≠
      some (countNameMarkers ["\"Name\" => \"A\"".data, "\"Name\" => \"B\"".data,
        "\"Tags\" => ".data] - 1) := by decide

theorem c6_witness :
    parse (dumpOf [(⟨"  \"Name\" => \"Dev\"".data, "  \"Tags\" => [".data,
        ["    0 => \"work\"".data], "  ]".data⟩ : Block)] ++
        "  \"Name\" => \"Work\"".data :: "  \"Tags\" => [".data ::
          ["    0 => \"vpn\"".data]) =
      some ([(⟨"  \"Name\" => \"Dev\"".data, "  \"Tags\" => [".data,
        ["    0 => \"work\"".data], "  ]".data⟩ : Block)].map recordOf) ∧
    (runLines initState (dumpOf [(⟨"  \"Name\" => \"Dev\"".data, "  \"Tags\" => [".data,
        ["    0 => \"work\"".data], "  ]".data⟩ : Block)] ++
        "  \"Name\" => \"Work\"".data :: "  \"Tags\" => [".data ::
          ["    0 => \"vpn\"".data])).map PState.tag_end = some false ∧
    countNameMarkers (dumpOf [(⟨"  \"Name\" => \"Dev\"".data, "  \"Tags\" => [".data,
        ["    0 => \"work\"".data], "  ]".data⟩ : Block)] ++
        "  \"Name\" => \"Work\"".data :: "  \"Tags\" => [".data ::
          ["    0 => \"vpn\"".data]) =
      [(⟨"  \"Name\" => \"Dev\"".data, "  \"Tags\" => [".data,
        ["    0 => \"work\"".data], "  ]".data⟩ : Block)].length + 1 :=
  c6_amended_unterminated_block_dropped
    [⟨"  \"Name\" => \"Dev\"".data, "  \"Tags\" => [".data,
      ["    0 => \"work\"".data], "  ]".data⟩]
    "  \"Name\" => \"Work\"".data "  \"Tags\" => [".data ["    0 => \"vpn\"".data]
    (by decide) (by decide) (by decide) (by decide)

/-! ## Name markers inside an open tag block -/

/-- **C3** (counterexample): a name-marker line read while inside an
open tag block does overwrite `currentName` and does not finalize the
record, but — contrary to the claim — it also appends a token to
`pendingTags`: the source's marker checks are independent `if`s, not an
exclusive priority chain, so after `"Name" => "B"` the pending tag list
is `["B"]`, not `[]`. -/
theorem c3_counterexample_name_line_appends_tag :
    runLines initState ["\"Name\" => \"A\"".data, "\"Tags\" => ".data,
        "\"Name\" => \"B\"".data] =
      some ⟨[], "B".data, ["B".data], false⟩ := by decide

/-- **C3** (amended): for every line containing the name marker (and
neither the tags marker nor `]`) read while `inTagBlock` is true, the
parser overwrites `currentName` with the extracted value and does not
finalize the in-progress record — but, the marker checks being
independent `if` statements rather than an exclusive chain, it ALSO
appends the line's tag token (the piece after the first `=>`,
quote-stripped and trimmed) to `pendingTags`. -/
theorem c3_amended_name_in_block_overwrites_and_appends (s : PState) (l : List Char)
    (h0 : s.tag_end = false) (h1 : containsL keyword_name l = true)
    (h2 : containsL keyword_tags l = false) (h3 : containsL [']'] l = false) :
    step s l = some ⟨s.items, extractName l, s.tags ++ [tagTokenOf l], false⟩ := by
  obtain ⟨si, sn, st, se⟩ := s
  have h0' : se = false := by simpa using h0
  subst h0'
  have ha : containsL arrow l = true :=
    containsL_mono arrow keyword_name l arrow_in_keyword_name h1
  obtain ⟨t, ht⟩ := splitArrow_get1 l ha
  simp [step, h1, h2, h3, ht, tagTokenOf]

theorem c3_witness :
    ((⟨[], "A".data, [], false⟩ : PState).tag_end = false) ∧
    step ⟨[], "A".data, [], false⟩ "\"Name\" => \"B\"".data =
      some ⟨[], extractName "\"Name\" => \"B\"".data,
            [tagTokenOf "\"Name\" => \"B\"".data], false⟩ :=
  ⟨by decide,
   c3_amended_name_in_block_overwrites_and_appends ⟨[], "A".data, [], false⟩
     "\"Name\" => \"B\"".data (by decide) (by decide) (by decide) (by decide)⟩

/-! ## The tag token and internal separators -/

/-- **C5** (counterexample): on the tag-entry line `0 => "a=>b"` the
appended token is `a` — `line.split('=>')[1]` is the piece between the
FIRST and SECOND separators — while the claim's "entire portion after
the first `=>`" would be `a=>b`. -/
theorem c5_counterexample_token_truncated :
    step ⟨[], "X".data, [], false⟩ "0 => \"a=>b\"".data =
      some ⟨[], "X".data, ["a".data], false⟩ ∧
    specTagToken "0 => \"a=>b\"".data = "a=>b".data ∧
    ("a".data : List Char) ≠ "a=>b".data := by decide

/-- **C5** (amended): for a tag-entry line of the shape
`a => b => c` (no `=>` inside `a` or `b`, no structural markers, read
inside an open tag block), the token appended to `pendingTags` is `b` —
the portion strictly BETWEEN the first and second occurrences of the
separator — quote-stripped and trimmed; a tag value containing `=>` is
therefore truncated at its internal separator.  (When the line has a
single `=>` this coincides with everything after it.) -/
theorem c5_amended_token_between_first_two_separators (s : PState) (a b c : List Char)
    (h0 : s.tag_end = false)
    (h1 : containsL keyword_name (a ++ '=' :: '>' :: (b ++ '=' :: '>' :: c)) = false)
    (h2 : containsL keyword_tags (a ++ '=' :: '>' :: (b ++ '=' :: '>' :: c)) = false)
    (h3 : containsL [']'] (a ++ '=' :: '>' :: (b ++ '=' :: '>' :: c)) = false)
    (ha : containsL arrow a = false) (hb : containsL arrow b = false) :
    step s (a ++ '=' :: '>' :: (b ++ '=' :: '>' :: c)) =
      some ⟨s.items, s.name, s.tags ++ [extractTag b], false⟩ := by
  obtain ⟨si, sn, st, se⟩ := s
  have h0' : se = false := by simpa using h0
  subst h0'
  have ht : (splitArrow (a ++ '=' :: '>' :: (b ++ '=' :: '>' :: c)))[1]? = some b := by
    rw [splitArrow_append_sep a _ ha, splitArrow_append_sep b c hb]
    simp
  exact step_tag_line si sn st _ b h1 h2 h3 ht

theorem c5_witness :
    ((⟨[], "X".data, [], false⟩ : PState).tag_end = false) ∧
    step ⟨[], "X".data, [], false⟩
        ("0 ".data ++ '=' :: '>' :: (" \"a".data ++ '=' :: '>' :: "b\"".data)) =
      some ⟨[], "X".data, [extractTag " \"a".data], false⟩ :=
  ⟨by decide,
   c5_amended_token_between_first_two_separators ⟨[], "X".data, [], false⟩
     "0 ".data " \"a".data "b\"".data
     (by decide) (by decide) (by decide) (by decide) (by decide) (by decide)⟩

/-! ## The reset invariant at record finalization -/

/-- **C10**: whenever a parser step finalizes a record (its `items`
list changes), the new record is exactly the pending name (possibly
just overwritten by this very line) paired with the space-joined
pending tags, and the state is fully reset — `currentName = ""`,
`pendingTags = []`, `inTagBlock = false` — before the next line is
read; hence every accumulated tag token ends up in at most one emitted
record and never leaks into a later one. -/
theorem c10_finalize_fully_resets (s : PState) (l : List Char) (s' : PState)
    (hstep : step s l = some s') (hchanged : s'.items ≠ s.items) :
    s'.items = s.items ++
        [⟨if containsL keyword_name l then extractName l else s.name,
          joinSpace s.tags⟩] ∧
    s'.name = [] ∧ s'.tags = [] ∧ s'.tag_end = true := by
  obtain ⟨si, sn, st, se⟩ := s
  by_cases hN : containsL keyword_name l = true <;>
    by_cases hT : containsL keyword_tags l = true
  · simp only [step, hN, hT, if_true, if_false] at hstep
    simp only [Option.some.injEq] at hstep
    rw [← hstep] at hchanged
    simp at hchanged
  · cases se with
    | true =>
      simp [step, hN, hT] at hstep
      rw [← hstep] at hchanged
      simp at hchanged
    | false =>
      by_cases hC : containsL [']'] l = true
      · simp [step, hN, hT, hC] at hstep
        rw [← hstep]
        simp [hN]
      · cases hq : (splitArrow l)[1]? with
        | none => simp [step, hN, hT, hC, hq] at hstep
        | some t =>
          simp [step, hN, hT, hC, hq] at hstep
          rw [← hstep] at hchanged
          simp at hchanged
  · simp [step, hN, hT] at hstep
    rw [← hstep] at hchanged
    simp at hchanged
  · cases se with
    | true =>
      simp [step, hN, hT] at hstep
      rw [← hstep] at hchanged
      simp at hchanged
    | false =>
      by_cases hC : containsL [']'] l = true
      · simp [step, hN, hT, hC] at hstep
        rw [← hstep]
        simp [hN]
      · cases hq : (splitArrow l)[1]? with
        | none => simp [step, hN, hT, hC, hq] at hstep
        | some t =>
          simp [step, hN, hT, hC, hq] at hstep
          rw [← hstep] at hchanged
          simp at hchanged

theorem c10_witness :
    step ⟨[], "A".data, ["x".data], false⟩ "]".data =
      some ⟨[⟨"A".data, "x".data⟩], [], [], true⟩ ∧
    ((⟨[⟨"A".data, "x".data⟩], [], [], true⟩ : PState).name = [] ∧
     (⟨[⟨"A".data, "x".data⟩], [], [], true⟩ : PState).tags = [] ∧
     (⟨[⟨"A".data, "x".data⟩], [], [], true⟩ : PState).tag_end = true) :=
  ⟨by decide,
   (c10_finalize_fully_resets ⟨[], "A".data, ["x".data], false⟩ "]".data
      ⟨[⟨"A".data, "x".data⟩], [], [], true⟩ (by decide) (by decide)).2⟩

/-! ## The error boundary of `Workflow.run` -/

/-- **C1** (code evaluation at the failing input): when the workflow
body raises — e.g. the preference plist is absent, so
`create_local_copy` raises `ItermPlistError` — `Workflow.run`'s
handler builds the synthetic error item with the exception OBJECT as
its subtitle; `ElementTree` cannot serialize that object, so after the
encoding declaration is written `ET.tostring` raises `TypeError`, the
document body is never written, no flush happens, and the `TypeError`
escapes `run`: the output is a truncated document (just the
declaration line) and the process crashes, contrary to the claim's
"single well-formed error document, never a crash". -/
theorem c1_error_path_truncates_and_crashes (nm err plistPath : List Char) :
    run nm (BodyResult.raises err) = ([OutEv.wr xmlHeader], none) ∧
    create_local_copy false plistPath =
      Except.error ("Can not find plist file at: ".data ++ plistPath) := by
  constructor
  · simp [run, tostringRoot, errorItem, serializeItems, serializeItem]
  · simp [create_local_copy]

/-! ## Escaping round-trips through a standard consumer -/

/-- **C8**: serializing a record whose name or tags contain `<`, `&`
or `"` emits, on standard output, the encoding declaration, then one
well-formed document embedding the title and subtitle elements, then a
flush; and a standard markup parser recovers the original literal
title and subtitle text exactly from those elements. -/
theorem c8_escaping_roundtrip (r : ProfileRecord)
    (h : (hasMeta r.name || hasMeta r.tags) = true) :
    send_feedback [wshItem r] =
      [OutEv.wr xmlHeader,
       OutEv.wr ("<items>".data ++
            ("<item valid=\"".data ++ "yes".data ++ "\">".data ++
             (elemString "title".data r.name ++
              (elemString "subtitle".data r.tags ++
               ((if r.name = [] then [] else elemString "arg".data r.name) ++
                "</item>".data))))
            ++ "</items>".data),
       OutEv.flush] ∧
    parseElemText "title".data (elemString "title".data r.name) = some r.name ∧
    parseElemText "subtitle".data (elemString "subtitle".data r.tags) = some r.tags := by
  refine ⟨?_, parseElemText_elemString _ _, parseElemText_elemString _ _⟩
  obtain ⟨nm, tg⟩ := r
  simp [send_feedback, tostringRoot, serializeItems, serializeItem, wshItem,
    List.append_assoc]

theorem c8_witness :
    ((hasMeta "a<b&c".data || hasMeta "x\"y".data) = true) ∧
    parseElemText "title".data
        (elemString "title".data "a<b&c".data) = some "a<b&c".data ∧
    parseElemText "subtitle".data
        (elemString "subtitle".data "x\"y".data) = some "x\"y".data :=
  ⟨by decide,
   (c8_escaping_roundtrip ⟨"a<b&c".data, "x\"y".data⟩ (by decide)).2.1,
   (c8_escaping_roundtrip ⟨"a<b&c".data, "x\"y".data⟩ (by decide)).2.2⟩

/-! ## Item node shape -/

theorem elemString_decomp (tag t : List Char) :
    elemString tag t = ('<' :: tag) ++
      (if t = [] then " />".data
       else '>' :: (escape_cdata t ++ '<' :: '/' :: (tag ++ ['>']))) := by
  by_cases ht : t = [] <;> simp [elemString, ht]

theorem serializeItem_wshItem (nm tg : List Char) :
    serializeItem (wshItem ⟨nm, tg⟩) =
      some ("<item valid=\"".data ++ "yes".data ++ "\">".data ++
        (elemString "title".data nm ++ (elemString "subtitle".data tg ++
         ((if nm = [] then [] else elemString "arg".data nm) ++ "</item>".data)))) := by
  simp [serializeItem, wshItem, List.append_assoc]

/-- **C9** (counterexample): the record whose parsed name is the empty
string serializes to an item that carries NO argument element at all
(`if self.arg:` is false for the empty string), contradicting the
claim that every surviving record's item carries an argument element
containing the profile name. -/
theorem c9_counterexample_empty_name_drops_arg :
    serializeItem (wshItem ⟨[], "work cli".data⟩) =
      some "<item valid=\"yes\"><title /><subtitle>work cli</subtitle></item>".data ∧
    containsL "<arg".data
      "<item valid=\"yes\"><title /><subtitle>work cli</subtitle></item>".data = false := by
  decide

/-- **C9** (amended): every surviving record's item node carries a
title element, a subtitle element and the validity attribute
`valid="yes"`; it carries an argument element — holding the (escaped)
profile name — exactly when the name is non-empty, the empty-string
name being falsy for `if self.arg:` so that the argument element is
omitted. -/
theorem c9_amended_item_fields (nm tg : List Char) :
    ((serializeItem (wshItem ⟨nm, tg⟩)).map
        (fun doc => containsL "valid=\"yes\"".data doc)) = some true ∧
    ((serializeItem (wshItem ⟨nm, tg⟩)).map
        (fun doc => containsL "<title".data doc)) = some true ∧
    ((serializeItem (wshItem ⟨nm, tg⟩)).map
        (fun doc => containsL "<subtitle".data doc)) = some true ∧
    (nm ≠ [] →
      ((serializeItem (wshItem ⟨nm, tg⟩)).map
        (fun doc =>
          containsL ("<arg>".data ++ (escape_cdata nm ++ "</arg>".data)) doc)) = some true) ∧
    (nm = [] →
      serializeItem (wshItem ⟨nm, tg⟩) =
        some ("<item valid=\"".data ++ "yes".data ++ "\">".data ++
          (elemString "title".data [] ++ (elemString "subtitle".data tg ++
           "</item>".data)))) := by
  have hD := serializeItem_wshItem nm tg
  refine ⟨?_, ?_, ?_, ?_, ?_⟩
  · rw [hD]
    simp only [Option.map_some', Option.some.injEq]
    exact containsL_of_parts _ "<item ".data
      (">".data ++ (elemString "title".data nm ++ (elemString "subtitle".data tg ++
        ((if nm = [] then [] else elemString "arg".data nm) ++ "</item>".data)))) _
      (by simp [List.append_assoc])
  · rw [hD]
    simp only [Option.map_some', Option.some.injEq]
    exact containsL_of_parts _
      ("<item valid=\"".data ++ "yes".data ++ "\">".data)
      ((if nm = [] then " />".data
        else '>' :: (escape_cdata nm ++ '<' :: '/' :: ("title".data ++ ['>']))) ++
       (elemString "subtitle".data tg ++
        ((if nm = [] then [] else elemString "arg".data nm) ++ "</item>".data))) _
      (by simp [elemString_decomp, List.append_assoc])
  · rw [hD]
    simp only [Option.map_some', Option.some.injEq]
    exact containsL_of_parts _
      ("<item valid=\"".data ++ "yes".data ++ "\">".data ++ elemString "title".data nm)
      ((if tg = [] then " />".data
        else '>' :: (escape_cdata tg ++ '<' :: '/' :: ("subtitle".data ++ ['>']))) ++
       ((if nm = [] then [] else elemString "arg".data nm) ++ "</item>".data)) _
      (by simp [elemString_decomp, List.append_assoc])
  · intro hnm
    rw [hD]
    simp only [Option.map_some', Option.some.injEq, if_neg hnm]
    exact containsL_of_parts _
      ("<item valid=\"".data ++ "yes".data ++ "\">".data ++
        (elemString "title".data nm ++ elemString "subtitle".data tg))
      ("</item>".data) _
      (by simp [elemString_decomp, hnm, List.append_assoc])
  · intro hnm
    subst hnm
    rw [hD]
    simp [List.append_assoc]

theorem c9_witness :
    ((serializeItem (wshItem ⟨"Dev".data, "work cli".data⟩)).map
        (fun doc => containsL "valid=\"yes\"".data doc)) = some true ∧
    ((serializeItem (wshItem ⟨"Dev".data, "work cli".data⟩)).map
        (fun doc =>
          containsL ("<arg>".data ++ (escape_cdata "Dev".data ++ "</arg>".data)) doc)) =
      some true :=
  ⟨(c9_amended_item_fields "Dev".data "work cli".data).1,
   (c9_amended_item_fields "Dev".data "work cli".data).2.2.2.1 (by decide)⟩
